import Mathlib

/-!
Verification of the `jfs` JSON file store (flosse/rust-json-file-store).

The development shallowly embeds the storage engine:

* `src/json_store.rs` — the backend contract (save_with_id / get / all / delete);
* `src/file_store.rs` — the serde-based file backend, in both multi-file mode
  (one `<id>.json` file per record under a root directory) and single-file mode
  (one aggregate JSON object file);
* `src/memory_store.rs` — the in-process memory backend;
* `src/lib.rs` — the legacy (rustc-serialize based) `Store` implementation that
  also ships in the repository.

Modelling conventions:

* JSON documents are the inductive `Value` (serde_json's `Value`, with numbers
  abstracted to `Int`; no claim inspects numeric representation).
* Serialization is modelled by storing the `Value` itself: `serde_json`
  serialization is injective and parsing its output returns the same `Value`,
  so a file written by the store holds `FileContent.json v`.  Externally
  corrupted file contents that fail to parse are `FileContent.corrupt s`.
* Typed encode/decode of a caller type `T` to/from `Value` is an external
  collaborator (serde); it is a `Codec` parameter.  Decode failures map to an
  `EKind.other` error, exactly as `serde_json` errors are wrapped by the code.
* Rust `std::io::Error` is abstracted to its `ErrorKind`; all claims observe
  only the kind (messages are never inspected).
* I/O failures that the environment can inject (a failed write to the
  temporary file, a failed directory read) are explicit boolean oracles
  (`wok`, `dirOk`).
* `BTreeMap`/`HashMap`/`serde_json::Map` are association lists with
  scan-replace insert, full-scan remove and first-match lookup; these agree
  with the observable map semantics of the Rust structures (iteration order is
  only ever observed through a `BTreeMap` collection, which is order-insensitive
  as a map).
-/

namespace Jfs

/-! ### Association lists (the map model used for all three stores) -/

/-- First-match lookup, the model of `Map::get` on all the map types used. -/
def alookup {β : Type} : List (String × β) → String → Option β
  | [], _ => none
  | kv :: rest, k => if kv.1 = k then some kv.2 else alookup rest k

/-- Scan-replace-else-append insert, the model of `Map::insert`. -/
def ainsert {β : Type} : List (String × β) → String → β → List (String × β)
  | [], k, v => [(k, v)]
  | kv :: rest, k, v => if kv.1 = k then (k, v) :: rest else kv :: ainsert rest k v

/-- Key removal, the model of `Map::remove`. -/
def aremove {β : Type} : List (String × β) → String → List (String × β)
  | [], _ => []
  | kv :: rest, k => if kv.1 = k then aremove rest k else kv :: aremove rest k

/-- Key membership, the model of `Map::contains_key`. -/
def acontains {β : Type} : List (String × β) → String → Bool
  | [], _ => false
  | kv :: rest, k => kv.1 = k || acontains rest k

/-! ### The JSON document model and error kinds -/

/-- serde_json's `Value` (numbers abstracted to `Int`). -/
inductive Value : Type where
  | null : Value
  | bool (b : Bool) : Value
  | num (n : Int) : Value
  | str (s : String) : Value
  | arr (xs : List Value) : Value
  | obj (o : List (String × Value)) : Value

/-- The `std::io::ErrorKind`s the store distinguishes. -/
inductive EKind : Type where
  | notFound
  | invalidData
  | other
  deriving DecidableEq

/-- Content of a file on disk: well-formed JSON (written by the store itself)
or externally corrupted text that fails to parse. -/
inductive FileContent : Type where
  | json (v : Value) : FileContent
  | corrupt (s : String) : FileContent

/-- The external typed codec (serde's `Serialize`/`Deserialize` for a caller
type `α`): encode to a JSON document, decode with possible failure. -/
structure Codec (α : Type) where
  enc : α → Value
  dec : Value → Option α

/-- `Value::get(id)`: field lookup, `none` on non-objects (serde's behavior). -/
def lookupValue : Value → String → Option Value
  | .obj o, id => alookup o id
  | _, _ => none

/-- `Value::as_object()`, as used by `get_object_from_json`. -/
def asObject : Value → Option (List (String × Value))
  | .obj o => some o
  | _ => none

/-! ### Paths and Rust's `Path::with_extension`

`FileStore::id_to_path` (file_store.rs:147-153) computes
`self.path.join(id).with_extension("json")` in multi-file mode.
`Path::with_extension` *replaces* an existing extension of the final path
component.  The model below implements Rust's `file_stem`/`extension` split
for a file name that is a single normal path component (nonempty, not `.` or
`..`, no `/`); all ids the claims run through the model are such components
or are restricted to them by hypothesis. -/

/-- Index of the last `'.'` in a character list, if any. -/
def lastDotIdx : List Char → Option Nat
  | [] => none
  | c :: rest =>
    match lastDotIdx rest with
    | some i => some (i + 1)
    | none => if c = '.' then some 0 else none

/-- Rust `Path::file_stem` on a normal file-name component: everything before
the last `'.'`, except that a leading `'.'` with no other dot is not an
extension separator. -/
def stemChars (cs : List Char) : List Char :=
  match lastDotIdx cs with
  | none => cs
  | some i => if i = 0 then cs else cs.take i

/-- Rust `Path::with_extension ext` on a normal file-name component. -/
def withExtChars (cs ext : List Char) : List Char :=
  stemChars cs ++ '.' :: ext

/-- `Path::file_stem` lifted to `String` (model of `path_buf_to_id`,
file_store.rs:155-159, which takes the file stem of a directory entry). -/
def fileStem (s : String) : String := ⟨stemChars s.data⟩

/-- `Path::with_extension` lifted to `String`. -/
def withExt (s ext : String) : String := ⟨withExtChars s.data ext.data⟩

/-- Ids that are a single normal path component with no extension dot:
nonempty, no `'.'`, no `'/'`.  (Generated ids are UUIDs, which qualify.) -/
def simpleId (s : String) : Bool :=
  !s.data.isEmpty && !s.data.contains '.' && !s.data.contains '/'

/-- The file name under the root directory used for id `id` in multi-file
mode: `id.json` by `with_extension` semantics. -/
def fileNameForId (id : String) : String := withExt id "json"

/-- `FileStore::id_to_path` (file_store.rs:147-153) and the identical legacy
`Store::id_to_path` (lib.rs:84-90): the root file itself in single-file mode,
`root.join(id).with_extension("json")` in multi-file mode. -/
def idToPath (root : String) (single : Bool) (id : String) : String :=
  if single then root else root ++ "/" ++ withExt id "json"

/-! ### Memory backend (`memory_store.rs`)

State: the guarded `HashMap<String, Mutex<String>>`; each entry holds the
serialized string of the saved value, modelled as the `Value` it parses to. -/

/-- Memory-store state: id ↦ stored (serialized) document. -/
abbrev MemSt : Type := List (String × Value)

namespace MemoryStore

/-- `MemoryStore::save_with_id` (memory_store.rs:24-39): serialize, then
replace the existing entry in place or insert a new one; returns the id. -/
def save_with_id {α : Type} (c : Codec α) (obj : α) (id : String) (st : MemSt) :
    Except EKind String × MemSt :=
  (Except.ok id, ainsert st id (c.enc obj))

/-- `MemoryStore::get` (memory_store.rs:41-51): lookup (NotFound if absent),
then deserialize (an `Other` error on decode failure). -/
def get {α : Type} (c : Codec α) (id : String) (st : MemSt) : Except EKind α :=
  match alookup st id with
  | none => Except.error EKind.notFound
  | some v =>
    match c.dec v with
    | none => Except.error EKind.other
    | some r => Except.ok r

/-- `MemoryStore::all` (memory_store.rs:53-67): decode every entry, collecting
successes into the result map and skipping failures; never fails. -/
def all {α : Type} (c : Codec α) (st : MemSt) : Except EKind (List (String × α)) :=
  Except.ok (st.filterMap fun kv => (c.dec kv.2).map fun r => (kv.1, r))

/-- `MemoryStore::delete` (memory_store.rs:69-77): remove the entry, NotFound
if absent (state unchanged in that case). -/
def delete (id : String) (st : MemSt) : Except EKind Unit × MemSt :=
  if acontains st id then (Except.ok (), aremove st id)
  else (Except.error EKind.notFound, st)

end MemoryStore

/-! ### File backend, single-file mode (`file_store.rs`, `cfg.single = true`)

State: the content of the one aggregate file at the store's (normalized)
path; `none` means the file does not exist. -/

/-- Single-file-mode state: the aggregate file's content, if it exists. -/
abbrev SFS : Type := Option FileContent

namespace FileStore

/-- `get_string_from_file` + `get_json_from_file` (file_store.rs:214-230):
open for read (NotFound if the file is absent), read all, parse
(parse errors are wrapped as `Other`). -/
def readJsonS (fs : SFS) : Except EKind Value :=
  match fs with
  | none => Except.error EKind.notFound
  | some (FileContent.corrupt _) => Except.error EKind.other
  | some (FileContent.json v) => Except.ok v

/-- `save_object_to_file` (file_store.rs:186-212) on the single aggregate
file.  `wok` is the environment oracle for step 4 of the atomic-write
protocol (writing the serialized content to the fresh temporary file).  On
success the rename replaces the target with the new content; on failure the
error propagates, the rename is skipped, and the target keeps its previous
content — except that opening the target with `create(true)` has already
created it empty when it did not exist. -/
def saveObjectToFileS (content : Value) (wok : Bool) (fs : SFS) :
    Except EKind Unit × SFS :=
  let fs1 : SFS := match fs with
    | none => some (FileContent.corrupt "")
    | some c => some c
  if wok then (Except.ok (), some (FileContent.json content))
  else (Except.error EKind.other, fs1)

/-- `FileStore::save_with_id`, single branch (file_store.rs:57-63): read the
aggregate, require a JSON object, insert the encoded value under `id`, write
the whole object back atomically, return the id. -/
def save_with_idS {α : Type} (c : Codec α) (obj : α) (id : String) (wok : Bool) (fs : SFS) :
    Except EKind String × SFS :=
  match readJsonS fs with
  | Except.error e => (Except.error e, fs)
  | Except.ok j =>
    match asObject j with
    | none => (Except.error EKind.invalidData, fs)
    | some o =>
      match saveObjectToFileS (Value.obj (ainsert o id (c.enc obj))) wok fs with
      | (Except.ok _, fs') => (Except.ok id, fs')
      | (Except.error e, fs') => (Except.error e, fs')

/-- `FileStore::get`, single branch (file_store.rs:70-84): read the aggregate,
`json.get(id)` (NotFound when absent), decode. -/
def getS {α : Type} (c : Codec α) (id : String) (fs : SFS) : Except EKind α :=
  match readJsonS fs with
  | Except.error e => Except.error e
  | Except.ok j =>
    match lookupValue j id with
    | none => Except.error EKind.notFound
    | some x =>
      match c.dec x with
      | none => Except.error EKind.other
      | some r => Except.ok r

/-- `FileStore::all`, single branch (file_store.rs:90-101): read the
aggregate, require a JSON object, decode every member, keeping successes. -/
def allS {α : Type} (c : Codec α) (fs : SFS) : Except EKind (List (String × α)) :=
  match readJsonS fs with
  | Except.error e => Except.error e
  | Except.ok j =>
    match asObject j with
    | none => Except.error EKind.invalidData
    | some o => Except.ok (o.filterMap fun kv => (c.dec kv.2).map fun r => (kv.1, r))

/-- `FileStore::delete`, single branch (file_store.rs:130-139): read the
aggregate, require an object, NotFound if the key is absent, else remove it
and write the result back atomically. -/
def deleteS (id : String) (wok : Bool) (fs : SFS) : Except EKind Unit × SFS :=
  match readJsonS fs with
  | Except.error e => (Except.error e, fs)
  | Except.ok j =>
    match asObject j with
    | none => (Except.error EKind.invalidData, fs)
    | some o =>
      if acontains o id then saveObjectToFileS (Value.obj (aremove o id)) wok fs
      else (Except.error EKind.notFound, fs)

/-- `FileStore::new_with_cfg`, single branch (file_store.rs:248-253): after
normalizing the path's extension to `.json`, write an empty object only if
the file does not yet exist. -/
def newWithCfgSingle (wok : Bool) (fs : SFS) : Except EKind Unit × SFS :=
  match fs with
  | some c => (Except.ok (), some c)
  | none => saveObjectToFileS (Value.obj []) wok none

end FileStore

/-- Legacy `Store::new_with_cfg`, single branch (lib.rs:140-143): normalizes
the extension and then *unconditionally* writes an empty object to the file,
with no existence check. -/
def Store.newWithCfgSingleLegacy (wok : Bool) (fs : SFS) : Except EKind Unit × SFS :=
  FileStore.saveObjectToFileS (Value.obj []) wok fs

/-! ### File backend, multi-file mode (`file_store.rs`, `cfg.single = false`)

State: the root directory, a map from file name (the single path component
under the root) to file content. -/

/-- Multi-file-mode state: file name ↦ content of the files under the root. -/
abbrev MFS : Type := List (String × FileContent)

namespace FileStore

/-- Reading the file `name` under the root (file_store.rs:214-230): open
(NotFound if absent), read, parse (`Other` on parse failure). -/
def readFileM (fs : MFS) (name : String) : Except EKind Value :=
  match alookup fs name with
  | none => Except.error EKind.notFound
  | some (FileContent.corrupt _) => Except.error EKind.other
  | some (FileContent.json v) => Except.ok v

/-- `save_object_to_file` (file_store.rs:186-212) on the file `name` under
the root; same atomic-write model as `saveObjectToFileS`. -/
def saveObjectToFileM (content : Value) (name : String) (wok : Bool) (fs : MFS) :
    Except EKind Unit × MFS :=
  let fs1 : MFS := if acontains fs name then fs else ainsert fs name (FileContent.corrupt "")
  if wok then (Except.ok (), ainsert fs name (FileContent.json content))
  else (Except.error EKind.other, fs1)

/-- `FileStore::save_with_id`, multi branch (file_store.rs:64-67): atomic
write of the encoded value to `id_to_path(id)`, returning the id. -/
def save_with_idM {α : Type} (c : Codec α) (obj : α) (id : String) (wok : Bool) (fs : MFS) :
    Except EKind String × MFS :=
  match saveObjectToFileM (c.enc obj) (fileNameForId id) wok fs with
  | (Except.ok _, fs') => (Except.ok id, fs')
  | (Except.error e, fs') => (Except.error e, fs')

/-- `FileStore::get`, multi branch (file_store.rs:70-84): read
`id_to_path(id)` (NotFound surfaces from the failed open), decode. -/
def getM {α : Type} (c : Codec α) (id : String) (fs : MFS) : Except EKind α :=
  match readFileM fs (fileNameForId id) with
  | Except.error e => Except.error e
  | Except.ok v =>
    match c.dec v with
    | none => Except.error EKind.other
    | some r => Except.ok r

/-- The per-candidate-id collection loop of `FileStore::all`, multi branch
(file_store.rs:107-124): call `get` for each id and insert successes into the
result map, dropping failures. -/
def allMGo {α : Type} (c : Codec α) (fs : MFS) :
    List String → List (String × α) → List (String × α)
  | [], acc => acc
  | i :: rest, acc =>
    match getM c i fs with
    | Except.ok x => allMGo c fs rest (ainsert acc i x)
    | Except.error _ => allMGo c fs rest acc

/-- `FileStore::all`, multi branch (file_store.rs:103-127): fail if the root
directory cannot be read (`dirOk` oracle for `metadata`/`read_dir`), else map
every file to its stem as a candidate id and collect the ids whose `get`
succeeds. -/
def allM {α : Type} (c : Codec α) (dirOk : Bool) (fs : MFS) :
    Except EKind (List (String × α)) :=
  if dirOk then Except.ok (allMGo c fs (fs.map fun kv => fileStem kv.1) [])
  else Except.error EKind.other

/-- `FileStore::delete`, multi branch (file_store.rs:140-142): `remove_file`
on `id_to_path(id)`; NotFound (with the state unchanged) if it did not exist. -/
def deleteM (id : String) (fs : MFS) : Except EKind Unit × MFS :=
  if acontains fs (fileNameForId id) then (Except.ok (), aremove fs (fileNameForId id))
  else (Except.error EKind.notFound, fs)

end FileStore

/-! ### Operation sequences over the `JsonStore` contract (`json_store.rs`)

A client program is a sequence of contract calls at one caller type `α`; each
backend runs it and produces the per-call observations (the typed results,
with errors observed by kind — exactly what the contract exposes). -/

/-- One call of the backend contract (json_store.rs:4-18). -/
inductive Op (α : Type) : Type where
  | save (v : α) (id : String) : Op α
  | get (id : String) : Op α
  | getAll : Op α
  | del (id : String) : Op α

/-- The observable result of one contract call. -/
inductive Obs (α : Type) : Type where
  | saved (r : Except EKind String) : Obs α
  | got (r : Except EKind α) : Obs α
  | gotAll (r : Except EKind (List (String × α))) : Obs α
  | deleted (r : Except EKind Unit) : Obs α

/-- One step of the memory backend. -/
def stepMem {α : Type} (c : Codec α) (st : MemSt) : Op α → Obs α × MemSt
  | Op.save v id =>
    (Obs.saved (MemoryStore.save_with_id c v id st).1, (MemoryStore.save_with_id c v id st).2)
  | Op.get id => (Obs.got (MemoryStore.get c id st), st)
  | Op.getAll => (Obs.gotAll (MemoryStore.all c st), st)
  | Op.del id => (Obs.deleted (MemoryStore.delete id st).1, (MemoryStore.delete id st).2)

/-- Run of the memory backend, collecting the observations. -/
def runMem {α : Type} (c : Codec α) : List (Op α) → MemSt → List (Obs α)
  | [], _ => []
  | op :: rest, st => (stepMem c st op).1 :: runMem c rest (stepMem c st op).2

/-- One step of the file backend in single-file mode (all writes succeed). -/
def stepS {α : Type} (c : Codec α) (fs : SFS) : Op α → Obs α × SFS
  | Op.save v id =>
    (Obs.saved (FileStore.save_with_idS c v id true fs).1, (FileStore.save_with_idS c v id true fs).2)
  | Op.get id => (Obs.got (FileStore.getS c id fs), fs)
  | Op.getAll => (Obs.gotAll (FileStore.allS c fs), fs)
  | Op.del id => (Obs.deleted (FileStore.deleteS id true fs).1, (FileStore.deleteS id true fs).2)

/-- Run of the single-file-mode file backend. -/
def runS {α : Type} (c : Codec α) : List (Op α) → SFS → List (Obs α)
  | [], _ => []
  | op :: rest, fs => (stepS c fs op).1 :: runS c rest (stepS c fs op).2

/-- One step of the file backend in multi-file mode (all writes succeed, the
directory is readable). -/
def stepM {α : Type} (c : Codec α) (fs : MFS) : Op α → Obs α × MFS
  | Op.save v id =>
    (Obs.saved (FileStore.save_with_idM c v id true fs).1, (FileStore.save_with_idM c v id true fs).2)
  | Op.get id => (Obs.got (FileStore.getM c id fs), fs)
  | Op.getAll => (Obs.gotAll (FileStore.allM c true fs), fs)
  | Op.del id => (Obs.deleted (FileStore.deleteM id fs).1, (FileStore.deleteM id fs).2)

/-- Run of the multi-file-mode file backend. -/
def runM {α : Type} (c : Codec α) : List (Op α) → MFS → List (Obs α)
  | [], _ => []
  | op :: rest, fs => (stepM c fs op).1 :: runM c rest (stepM c fs op).2

/-- Ids mentioned by an operation are simple path components. -/
def opSimple {α : Type} : Op α → Bool
  | Op.save _ id => simpleId id
  | Op.get id => simpleId id
  | Op.getAll => true
  | Op.del id => simpleId id

/-- The aggregate-file state `FileStore::new_with_cfg` initializes in
single-file mode: the empty JSON object. -/
def initSingle : SFS := some (FileContent.json (Value.obj []))

/-! ### Concrete codecs used as witnesses -/

/-- Reading and writing at type `serde_json::Value` itself: encode is the
identity, decode always succeeds. -/
def valueCodec : Codec Value := ⟨fun v => v, fun v => some v⟩

/-- A caller type with one boolean field, as in the repository's tests:
decodes only from a boolean document. -/
def boolCodec : Codec Bool :=
  ⟨Value.bool, fun v => match v with | Value.bool b => some b | _ => none⟩

/-- The per-id body of the multi-file `all` collection loop: the entry
contributed by candidate id `i`, if its `get` succeeds. -/
def collectGet {α : Type} (c : Codec α) (mfs : MFS) (i : String) : Option (String × α) :=
  match FileStore.getM c i mfs with
  | Except.ok x => some (i, x)
  | Except.error _ => none

/-! ### Abstraction relation between memory state and multi-file-mode state -/

/-- The multi-file directory corresponding to a memory table: each record `id`
occupies the file `id.json` holding the record's serialized document. -/
def renameSt (st : MemSt) : MFS :=
  st.map fun kv => (kv.1 ++ ".json", FileContent.json kv.2)

/-- All ids of a memory table are simple path components. -/
def SimpleKeys (st : MemSt) : Prop := ∀ kv ∈ st, simpleId kv.1 = true

/-- Reachable-table invariant: simple, duplicate-free ids. -/
def GoodSt (st : MemSt) : Prop := SimpleKeys st ∧ (st.map Prod.fst).Nodup

/-- The call sequence separating the multi-file backend from the memory
backend: save under `"a"`, save under `"a.b"` (whose file name collides with
`"a"`'s because `with_extension` replaces `.b`), then read `"a"` back. -/
def cexOps : List (Op Value) :=
  [Op.save Value.null "a", Op.save (Value.bool true) "a.b", Op.get "a"]

/-- A call sequence touching every contract operation, used to witness the
parity theorem at a concrete input. -/
def witOps : List (Op Bool) :=
  [Op.save true "a", Op.get "a", Op.getAll, Op.save false "a", Op.get "a",
   Op.del "a", Op.get "a", Op.del "a", Op.getAll]

/-! ## Lemma layer -/

/-! ### Association-list lemmas -/

@[simp] theorem alookup_nil {β : Type} (k : String) : alookup ([] : List (String × β)) k = none := rfl

@[simp] theorem alookup_cons {β : Type} (kv : String × β) (rest : List (String × β)) (k : String) :
    alookup (kv :: rest) k = if kv.1 = k then some kv.2 else alookup rest k := rfl

@[simp] theorem acontains_cons {β : Type} (kv : String × β) (rest : List (String × β)) (k : String) :
    acontains (kv :: rest) k = (decide (kv.1 = k) || acontains rest k) := rfl

theorem alookup_ainsert_self {β : Type} (l : List (String × β)) (k : String) (v : β) :
    alookup (ainsert l k v) k = some v := by
  induction l with
  | nil => simp [ainsert, alookup]
  | cons kv rest ih =>
      by_cases h : kv.1 = k
      · simp [ainsert, h, alookup]
      · simp [ainsert, h, alookup, ih]

theorem alookup_ainsert_ne {β : Type} (l : List (String × β)) (k k' : String) (v : β)
    (h : k ≠ k') : alookup (ainsert l k v) k' = alookup l k' := by
  induction l with
  | nil => simp [ainsert, alookup, h]
  | cons kv rest ih =>
      by_cases hk : kv.1 = k
      · simp [ainsert, hk, alookup, h]
      · simp [ainsert, hk, alookup, ih]

theorem length_ainsert_of_acontains {β : Type} (l : List (String × β)) (k : String) (v : β)
    (h : acontains l k = true) : (ainsert l k v).length = l.length := by
  induction l with
  | nil => simp [acontains] at h
  | cons kv rest ih =>
      by_cases hk : kv.1 = k
      · simp [ainsert, hk]
      · simp [acontains, hk] at h
        simp [ainsert, hk, ih h]

theorem alookup_aremove_self {β : Type} (l : List (String × β)) (k : String) :
    alookup (aremove l k) k = none := by
  induction l with
  | nil => simp [aremove]
  | cons kv rest ih =>
      by_cases hk : kv.1 = k
      · simp [aremove, hk, ih]
      · simp [aremove, hk, alookup, ih]

theorem acontains_aremove_self {β : Type} (l : List (String × β)) (k : String) :
    acontains (aremove l k) k = false := by
  induction l with
  | nil => simp [aremove, acontains]
  | cons kv rest ih =>
      by_cases hk : kv.1 = k
      · simp [aremove, hk, ih]
      · simp [aremove, hk, acontains, ih]

theorem acontains_eq_false_iff_alookup {β : Type} (l : List (String × β)) (k : String) :
    acontains l k = false ↔ alookup l k = none := by
  induction l with
  | nil => simp [acontains, alookup]
  | cons kv rest ih =>
      by_cases hk : kv.1 = k
      · simp [acontains, alookup, hk]
      · simp [acontains, alookup, hk, ih]

theorem mem_ainsert {β : Type} (l : List (String × β)) (k : String) (v : β) :
    ∀ x ∈ ainsert l k v, x = (k, v) ∨ x ∈ l := by
  induction l with
  | nil => intro x hx; simp [ainsert] at hx; exact Or.inl hx
  | cons kv rest ih =>
      intro x hx
      by_cases hk : kv.1 = k
      · simp only [ainsert, if_pos hk, List.mem_cons] at hx
        rcases hx with h | h
        · exact Or.inl h
        · exact Or.inr (List.mem_cons_of_mem _ h)
      · simp only [ainsert, if_neg hk, List.mem_cons] at hx
        rcases hx with h | h
        · exact Or.inr (by simp [h])
        · rcases ih x h with h' | h'
          · exact Or.inl h'
          · exact Or.inr (List.mem_cons_of_mem _ h')

theorem mem_aremove {β : Type} (l : List (String × β)) (k : String) :
    ∀ x ∈ aremove l k, x ∈ l := by
  induction l with
  | nil => intro x hx; simp [aremove] at hx
  | cons kv rest ih =>
      intro x hx
      by_cases hk : kv.1 = k
      · simp only [aremove, if_pos hk] at hx
        exact List.mem_cons_of_mem _ (ih x hx)
      · simp only [aremove, if_neg hk, List.mem_cons] at hx
        rcases hx with h | h
        · simp [h]
        · exact List.mem_cons_of_mem _ (ih x h)

theorem aremove_sublist {β : Type} (l : List (String × β)) (k : String) :
    (aremove l k).Sublist l := by
  induction l with
  | nil => simp [aremove]
  | cons kv rest ih =>
      by_cases hk : kv.1 = k
      · simp only [aremove, if_pos hk]
        exact ih.cons kv
      · simp only [aremove, if_neg hk]
        exact ih.cons₂ kv

theorem acontains_iff_mem_keys {β : Type} (l : List (String × β)) (k : String) :
    acontains l k = true ↔ k ∈ l.map Prod.fst := by
  induction l with
  | nil => simp [acontains]
  | cons kv rest ih =>
      by_cases hk : kv.1 = k
      · simp [acontains, hk]
      · simp [acontains, hk, ih, Ne.symm hk]

theorem keys_ainsert_of_acontains {β : Type} (l : List (String × β)) (k : String) (v : β)
    (h : acontains l k = true) : (ainsert l k v).map Prod.fst = l.map Prod.fst := by
  induction l with
  | nil => simp [acontains] at h
  | cons kv rest ih =>
      by_cases hk : kv.1 = k
      · simp [ainsert, hk]
      · simp [acontains, hk] at h
        simp [ainsert, hk, ih h]

theorem keys_ainsert_of_not_acontains {β : Type} (l : List (String × β)) (k : String) (v : β)
    (h : acontains l k = false) : (ainsert l k v).map Prod.fst = l.map Prod.fst ++ [k] := by
  induction l with
  | nil => simp [ainsert]
  | cons kv rest ih =>
      by_cases hk : kv.1 = k
      · simp [acontains, hk] at h
      · simp [acontains, hk] at h
        simp [ainsert, hk, ih h]

theorem ainsert_of_not_acontains {β : Type} (l : List (String × β)) (k : String) (v : β)
    (h : acontains l k = false) : ainsert l k v = l ++ [(k, v)] := by
  induction l with
  | nil => simp [ainsert]
  | cons kv rest ih =>
      by_cases hk : kv.1 = k
      · simp [acontains, hk] at h
      · simp [acontains, hk] at h
        simp [ainsert, hk, ih h]

theorem acontains_append {β : Type} (l₁ l₂ : List (String × β)) (k : String) :
    acontains (l₁ ++ l₂) k = (acontains l₁ k || acontains l₂ k) := by
  induction l₁ with
  | nil => simp [acontains]
  | cons kv rest ih => simp [acontains, ih, Bool.or_assoc]

/-! ### Path and extension lemmas -/

theorem lastDotIdx_eq_none (cs : List Char) (h : '.' ∉ cs) : lastDotIdx cs = none := by
  induction cs with
  | nil => rfl
  | cons c rest ih =>
      rw [List.mem_cons, not_or] at h
      simp [lastDotIdx, ih h.2, Ne.symm h.1]

theorem lastDotIdx_append (cs ext : List Char) (hcs : '.' ∉ cs) (hext : '.' ∉ ext) :
    lastDotIdx (cs ++ '.' :: ext) = some cs.length := by
  induction cs with
  | nil => simp [lastDotIdx, lastDotIdx_eq_none ext hext]
  | cons c rest ih =>
      rw [List.mem_cons, not_or] at hcs
      simp [lastDotIdx, ih hcs.2]

theorem stemChars_append (cs ext : List Char) (hne : cs ≠ []) (hcs : '.' ∉ cs)
    (hext : '.' ∉ ext) : stemChars (cs ++ '.' :: ext) = cs := by
  rw [stemChars, lastDotIdx_append cs ext hcs hext]
  simp only [List.length_eq_zero]
  rw [if_neg hne]
  exact List.take_left cs ('.' :: ext)

theorem withExtChars_no_dot (cs ext : List Char) (hcs : '.' ∉ cs) :
    withExtChars cs ext = cs ++ '.' :: ext := by
  rw [withExtChars, stemChars, lastDotIdx_eq_none cs hcs]

theorem simpleId_spec (s : String) (h : simpleId s = true) :
    s.data ≠ [] ∧ '.' ∉ s.data ∧ '/' ∉ s.data := by
  simp only [simpleId, Bool.and_eq_true, Bool.not_eq_true'] at h
  obtain ⟨⟨h1, h2⟩, h3⟩ := h
  refine ⟨?_, ?_, ?_⟩
  · intro hn; rw [hn] at h1; simp at h1
  · intro hm
    have he : List.elem '.' s.data = true := List.elem_iff.mpr hm
    rw [List.contains] at h2; rw [h2] at he; exact Bool.noConfusion he
  · intro hm
    have he : List.elem '/' s.data = true := List.elem_iff.mpr hm
    rw [List.contains] at h3; rw [h3] at he; exact Bool.noConfusion he

theorem fileNameForId_simple (id : String) (h : simpleId id = true) :
    fileNameForId id = id ++ ".json" := by
  obtain ⟨-, hdot, -⟩ := simpleId_spec id h
  apply String.ext
  rw [String.data_append]
  have h1 : (fileNameForId id).data = withExtChars id.data "json".data := rfl
  rw [h1, withExtChars_no_dot _ _ hdot]

theorem fileStem_simple (id : String) (h : simpleId id = true) :
    fileStem (id ++ ".json") = id := by
  obtain ⟨hne, hdot, -⟩ := simpleId_spec id h
  apply String.ext
  have h1 : (fileStem (id ++ ".json")).data = stemChars (id ++ ".json").data := rfl
  rw [h1, String.data_append]
  have h2 : ".json".data = '.' :: "json".data := rfl
  rw [h2, stemChars_append id.data "json".data hne hdot (by decide)]

theorem append_json_cancel (a b : String) (h : a ++ ".json" = b ++ ".json") : a = b := by
  apply String.ext
  have h1 := congrArg String.data h
  rw [String.data_append, String.data_append] at h1
  exact List.append_cancel_right h1

/-! ### Refinement: single-file-mode file backend vs. memory backend

A single-file store whose aggregate file holds the JSON object `st` behaves,
step for step, exactly like a memory store whose table is `st`. -/

theorem stepS_mem {α : Type} (c : Codec α) (st : MemSt) (op : Op α) :
    stepS c (some (FileContent.json (Value.obj st))) op =
      ((stepMem c st op).1, some (FileContent.json (Value.obj (stepMem c st op).2))) := by
  cases op with
  | save v id => rfl
  | get id => rfl
  | getAll => rfl
  | del id =>
      by_cases h : acontains st id
      · simp [stepS, stepMem, FileStore.deleteS, FileStore.readJsonS, asObject,
          FileStore.saveObjectToFileS, MemoryStore.delete, h]
      · simp [stepS, stepMem, FileStore.deleteS, FileStore.readJsonS, asObject,
          MemoryStore.delete, h]

theorem runS_eq_runMem {α : Type} (c : Codec α) (ops : List (Op α)) (st : MemSt) :
    runS c ops (some (FileContent.json (Value.obj st))) = runMem c ops st := by
  induction ops generalizing st with
  | nil => rfl
  | cons op rest ih =>
      show (stepS c _ op).1 :: runS c rest (stepS c _ op).2 = _
      rw [stepS_mem]
      exact congrArg (List.cons (stepMem c st op).1) (ih (stepMem c st op).2)

/-! ### Refinement: multi-file-mode file backend vs. memory backend -/

theorem alookup_renameSt (st : MemSt) (k : String) :
    alookup (renameSt st) (k ++ ".json") = (alookup st k).map FileContent.json := by
  induction st with
  | nil => simp [renameSt, alookup]
  | cons kv rest ih =>
      by_cases h : kv.1 = k
      · simp [renameSt, alookup, h]
      · have hne : ¬ kv.1 ++ ".json" = k ++ ".json" := fun hc => h (append_json_cancel _ _ hc)
        simpa [renameSt, alookup, h, hne] using ih

theorem acontains_renameSt (st : MemSt) (k : String) :
    acontains (renameSt st) (k ++ ".json") = acontains st k := by
  induction st with
  | nil => simp [renameSt, acontains]
  | cons kv rest ih =>
      by_cases h : kv.1 = k
      · simp [renameSt, acontains, h]
      · have hne : ¬ kv.1 ++ ".json" = k ++ ".json" := fun hc => h (append_json_cancel _ _ hc)
        simpa [renameSt, acontains, h, hne] using ih

theorem aremove_renameSt (st : MemSt) (k : String) :
    aremove (renameSt st) (k ++ ".json") = renameSt (aremove st k) := by
  induction st with
  | nil => simp [renameSt, aremove]
  | cons kv rest ih =>
      by_cases h : kv.1 = k
      · simpa [renameSt, aremove, h] using ih
      · have hne : ¬ kv.1 ++ ".json" = k ++ ".json" := fun hc => h (append_json_cancel _ _ hc)
        simpa [renameSt, aremove, h, hne] using ih

theorem ainsert_renameSt (st : MemSt) (k : String) (w : Value) :
    ainsert (renameSt st) (k ++ ".json") (FileContent.json w) = renameSt (ainsert st k w) := by
  induction st with
  | nil => simp [renameSt, ainsert]
  | cons kv rest ih =>
      by_cases h : kv.1 = k
      · simp [renameSt, ainsert, h]
      · have hne : ¬ kv.1 ++ ".json" = k ++ ".json" := fun hc => h (append_json_cancel _ _ hc)
        simpa [renameSt, ainsert, h, hne] using ih

theorem getM_renameSt {α : Type} (c : Codec α) (id : String) (st : MemSt)
    (hid : simpleId id = true) :
    FileStore.getM c id (renameSt st) = MemoryStore.get c id st := by
  rw [FileStore.getM, FileStore.readFileM, fileNameForId_simple id hid, alookup_renameSt]
  rw [MemoryStore.get]
  cases alookup st id with
  | none => rfl
  | some v => cases c.dec v <;> rfl

theorem getM_cons_ne {α : Type} (c : Codec α) (i k : String) (w : FileContent) (mfs : MFS)
    (hi : simpleId i = true) (hne : i ≠ k) :
    FileStore.getM c i ((k ++ ".json", w) :: mfs) = FileStore.getM c i mfs := by
  have h : ¬ (k ++ ".json" = i ++ ".json") := fun hc => hne (append_json_cancel _ _ hc).symm
  rw [FileStore.getM, FileStore.getM, FileStore.readFileM, FileStore.readFileM,
    fileNameForId_simple i hi]
  simp [alookup, h]

theorem stems_renameSt (st : MemSt) (h : SimpleKeys st) :
    (renameSt st).map (fun kv => fileStem kv.1) = st.map Prod.fst := by
  induction st with
  | nil => rfl
  | cons kv rest ih =>
      have hkv : simpleId kv.1 = true := h kv (List.mem_cons_self _ _)
      have hrest : SimpleKeys rest := fun x hx => h x (List.mem_cons_of_mem _ hx)
      have hcons : renameSt (kv :: rest)
          = (kv.1 ++ ".json", FileContent.json kv.2) :: renameSt rest := rfl
      rw [hcons, List.map_cons, List.map_cons, fileStem_simple kv.1 hkv, ih hrest]

theorem allMGo_spec {α : Type} (c : Codec α) (mfs : MFS) :
    ∀ (ids : List String) (acc : List (String × α)), ids.Nodup →
      (∀ i ∈ ids, acontains acc i = false) →
      FileStore.allMGo c mfs ids acc = acc ++ ids.filterMap (collectGet c mfs) := by
  intro ids
  induction ids with
  | nil => intro acc _ _; simp [FileStore.allMGo]
  | cons i rest ih =>
      intro acc hnd hfresh
      rw [List.nodup_cons] at hnd
      have hfr : acontains acc i = false := hfresh i (List.mem_cons_self _ _)
      cases hg : FileStore.getM c i mfs with
      | ok x =>
          have h1 : FileStore.allMGo c mfs (i :: rest) acc
              = FileStore.allMGo c mfs rest (ainsert acc i x) := by
            simp [FileStore.allMGo, hg]
          have hcol : collectGet c mfs i = some (i, x) := by simp [collectGet, hg]
          rw [h1, ainsert_of_not_acontains acc i x hfr]
          rw [ih (acc ++ [(i, x)]) hnd.2 ?_]
          · rw [List.filterMap_cons_some hcol, List.append_assoc]
            rfl
          · intro j hj
            have hji : j ≠ i := fun hji => hnd.1 (hji ▸ hj)
            rw [acontains_append]
            simp [hfresh j (List.mem_cons_of_mem _ hj), acontains, Ne.symm hji]
      | error e =>
          have h1 : FileStore.allMGo c mfs (i :: rest) acc
              = FileStore.allMGo c mfs rest acc := by
            simp [FileStore.allMGo, hg]
          have hcol : collectGet c mfs i = none := by simp [collectGet, hg]
          rw [h1, ih acc hnd.2 (fun j hj => hfresh j (List.mem_cons_of_mem _ hj))]
          rw [List.filterMap_cons_none hcol]

theorem getM_keys_filterMap {α : Type} (c : Codec α) :
    ∀ (st : MemSt), SimpleKeys st → (st.map Prod.fst).Nodup →
      (st.map Prod.fst).filterMap (collectGet c (renameSt st))
        = st.filterMap (fun kv => (c.dec kv.2).map fun r => (kv.1, r)) := by
  intro st
  induction st with
  | nil => intro _ _; rfl
  | cons kv rest ih =>
      intro hS hN
      have hkv : simpleId kv.1 = true := hS kv (List.mem_cons_self _ _)
      have hrest : SimpleKeys rest := fun x hx => hS x (List.mem_cons_of_mem _ hx)
      rw [List.map_cons, List.nodup_cons] at hN
      have hf : collectGet c (renameSt (kv :: rest)) kv.1
          = (c.dec kv.2).map fun r => (kv.1, r) := by
        rw [collectGet, getM_renameSt c kv.1 (kv :: rest) hkv]
        cases hdec : c.dec kv.2 with
        | none => simp [MemoryStore.get, alookup, hdec]
        | some r => simp [MemoryStore.get, alookup, hdec]
      have htail : (rest.map Prod.fst).filterMap (collectGet c (renameSt (kv :: rest)))
          = (rest.map Prod.fst).filterMap (collectGet c (renameSt rest)) := by
        apply List.filterMap_congr
        intro i hi
        obtain ⟨x, hx, hxi⟩ := List.mem_map.mp hi
        have hisimp : simpleId i = true := hxi ▸ hrest x hx
        have hik : i ≠ kv.1 := fun hik => hN.1 (hik ▸ hi)
        show collectGet c ((kv.1 ++ ".json", FileContent.json kv.2) :: renameSt rest) i = _
        rw [collectGet, collectGet, getM_cons_ne c i kv.1 (FileContent.json kv.2)
          (renameSt rest) hisimp hik]
      rw [List.map_cons]
      cases hdec : c.dec kv.2 with
      | some r =>
          rw [List.filterMap_cons_some (show collectGet c (renameSt (kv :: rest)) kv.1
            = some (kv.1, r) by rw [hf, hdec]; rfl)]
          rw [htail, ih hrest hN.2]
          simp [List.filterMap_cons, hdec]
      | none =>
          rw [List.filterMap_cons_none (show collectGet c (renameSt (kv :: rest)) kv.1
            = none by rw [hf, hdec]; rfl)]
          rw [htail, ih hrest hN.2]
          simp [List.filterMap_cons, hdec]

theorem allM_renameSt {α : Type} (c : Codec α) (st : MemSt) (hS : SimpleKeys st)
    (hN : (st.map Prod.fst).Nodup) :
    FileStore.allM c true (renameSt st) = MemoryStore.all c st := by
  have h1 : FileStore.allM c true (renameSt st)
      = Except.ok (FileStore.allMGo c (renameSt st)
          ((renameSt st).map fun kv => fileStem kv.1) []) := rfl
  rw [h1, stems_renameSt st hS,
    allMGo_spec c (renameSt st) (st.map Prod.fst) [] hN (fun _ _ => rfl),
    List.nil_append, getM_keys_filterMap c st hS hN]
  rfl

theorem goodSt_ainsert (st : MemSt) (k : String) (v : Value) (hG : GoodSt st)
    (hk : simpleId k = true) : GoodSt (ainsert st k v) := by
  constructor
  · intro kv hkv
    rcases mem_ainsert st k v kv hkv with h | h
    · rw [h]; exact hk
    · exact hG.1 kv h
  · cases hc : acontains st k
    · rw [keys_ainsert_of_not_acontains st k v hc, List.nodup_append]
      refine ⟨hG.2, List.nodup_singleton k, ?_⟩
      rw [List.disjoint_singleton]
      intro hm
      rw [← acontains_iff_mem_keys] at hm
      rw [hm] at hc
      exact Bool.noConfusion hc
    · rw [keys_ainsert_of_acontains st k v hc]
      exact hG.2

theorem goodSt_aremove (st : MemSt) (k : String) (hG : GoodSt st) :
    GoodSt (aremove st k) := by
  constructor
  · intro kv hkv
    exact hG.1 kv (mem_aremove st k kv hkv)
  · exact List.Nodup.sublist (List.Sublist.map Prod.fst (aremove_sublist st k)) hG.2

theorem stepM_mem {α : Type} (c : Codec α) (st : MemSt) (op : Op α) (hG : GoodSt st)
    (hop : opSimple op = true) :
    stepM c (renameSt st) op = ((stepMem c st op).1, renameSt (stepMem c st op).2)
    ∧ GoodSt (stepMem c st op).2 := by
  cases op with
  | save v id =>
      have hid : simpleId id = true := hop
      refine ⟨?_, goodSt_ainsert st id (c.enc v) hG hid⟩
      have h1 : FileStore.save_with_idM c v id true (renameSt st)
          = (Except.ok id, renameSt (ainsert st id (c.enc v))) := by
        rw [FileStore.save_with_idM, FileStore.saveObjectToFileM, fileNameForId_simple id hid,
          ainsert_renameSt]
        rfl
      simp [stepM, stepMem, h1, MemoryStore.save_with_id]
  | get id =>
      have hid : simpleId id = true := hop
      exact ⟨by simp [stepM, stepMem, getM_renameSt c id st hid], hG⟩
  | getAll =>
      exact ⟨by simp [stepM, stepMem, allM_renameSt c st hG.1 hG.2], hG⟩
  | del id =>
      have hid : simpleId id = true := hop
      cases h : acontains st id
      · refine ⟨?_, ?_⟩
        · simp [stepM, stepMem, FileStore.deleteM, MemoryStore.delete, h,
            fileNameForId_simple id hid, acontains_renameSt]
        · have h2 : (stepMem c st (Op.del id)).2 = st := by
            simp [stepMem, MemoryStore.delete, h]
          rw [h2]; exact hG
      · refine ⟨?_, ?_⟩
        · simp [stepM, stepMem, FileStore.deleteM, MemoryStore.delete, h,
            fileNameForId_simple id hid, acontains_renameSt, aremove_renameSt]
        · have h2 : (stepMem c st (Op.del id)).2 = aremove st id := by
            simp [stepMem, MemoryStore.delete, h]
          rw [h2]; exact goodSt_aremove st id hG

theorem runM_eq_runMem {α : Type} (c : Codec α) (ops : List (Op α)) (st : MemSt)
    (hG : GoodSt st) (hops : ∀ op ∈ ops, opSimple op = true) :
    runM c ops (renameSt st) = runMem c ops st := by
  induction ops generalizing st with
  | nil => rfl
  | cons op rest ih =>
      obtain ⟨hstep, hG'⟩ := stepM_mem c st op hG (hops op (List.mem_cons_self _ _))
      show (stepM c (renameSt st) op).1 :: runM c rest (stepM c (renameSt st) op).2 = _
      rw [hstep]
      exact congrArg (List.cons (stepMem c st op).1)
        (ih (stepMem c st op).2 hG' (fun o ho => hops o (List.mem_cons_of_mem _ ho)))

theorem string_append_assoc (a b c : String) : a ++ b ++ c = a ++ (b ++ c) := by
  apply String.ext
  rw [String.data_append, String.data_append, String.data_append, String.data_append,
    List.append_assoc]

/-! ## Claim theorems -/

/-- Claim C1: for every encodable value `v` and id `id`, `save_with_id(v, id)`
followed by `get(id)` at the same type returns a value equal to `v`, on the
memory backend and on the file backend in both single-file and multi-file
mode (assuming the external codec round-trips, which is serde's contract). -/
theorem claim1_round_trip {α : Type} (c : Codec α) (v : α) (id : String)
    (hrt : c.dec (c.enc v) = some v) :
    (∀ st : MemSt,
        MemoryStore.get c id (MemoryStore.save_with_id c v id st).2 = Except.ok v)
    ∧ (∀ o : List (String × Value),
        FileStore.getS c id
          (FileStore.save_with_idS c v id true (some (FileContent.json (Value.obj o)))).2
          = Except.ok v)
    ∧ (∀ fs : MFS,
        FileStore.getM c id (FileStore.save_with_idM c v id true fs).2 = Except.ok v) := by
  refine ⟨?_, ?_, ?_⟩
  · intro st
    simp [MemoryStore.save_with_id, MemoryStore.get, alookup_ainsert_self, hrt]
  · intro o
    have h1 : (FileStore.save_with_idS c v id true (some (FileContent.json (Value.obj o)))).2
        = some (FileContent.json (Value.obj (ainsert o id (c.enc v)))) := rfl
    rw [h1]
    simp [FileStore.getS, FileStore.readJsonS, lookupValue, alookup_ainsert_self, hrt]
  · intro fs
    have h1 : (FileStore.save_with_idM c v id true fs).2
        = ainsert fs (fileNameForId id) (FileContent.json (c.enc v)) := rfl
    rw [h1]
    simp [FileStore.getM, FileStore.readFileM, alookup_ainsert_self, hrt]

/-- Witness for C1: a concrete save-then-get round trip on all three
backends. -/
theorem claim1_round_trip_wit :
    boolCodec.dec (boolCodec.enc true) = some true
    ∧ MemoryStore.get boolCodec "bla"
        (MemoryStore.save_with_id boolCodec true "bla" []).2 = Except.ok true
    ∧ FileStore.getS boolCodec "bla"
        (FileStore.save_with_idS boolCodec true "bla" true
          (some (FileContent.json (Value.obj [])))).2 = Except.ok true
    ∧ FileStore.getM boolCodec "bla"
        (FileStore.save_with_idM boolCodec true "bla" true []).2 = Except.ok true := by
  have h := claim1_round_trip boolCodec true "bla" rfl
  exact ⟨rfl, h.1 [], h.2.1 [], h.2.2 []⟩

/-- Claim C2: in the atomic-write protocol, if writing the serialized content
to the temporary file fails, the I/O error propagates, the rename is skipped
and the target file keeps its previous content — stated for
`save_object_to_file` on the aggregate file (single mode) and on a record
file (multi mode), and lifted to `save_with_id` on both. -/
theorem claim2_failed_tmp_write_preserves_target :
    (∀ (v : Value) (cnt : FileContent),
        FileStore.saveObjectToFileS v false (some cnt)
          = (Except.error EKind.other, some cnt))
    ∧ (∀ (v : Value) (name : String) (fs : MFS), acontains fs name = true →
        FileStore.saveObjectToFileM v name false fs = (Except.error EKind.other, fs))
    ∧ (∀ (α : Type) (c : Codec α) (v : α) (id : String) (o : List (String × Value)),
        FileStore.save_with_idS c v id false (some (FileContent.json (Value.obj o)))
          = (Except.error EKind.other, some (FileContent.json (Value.obj o))))
    ∧ (∀ (α : Type) (c : Codec α) (v : α) (id : String) (fs : MFS),
        acontains fs (fileNameForId id) = true →
        FileStore.save_with_idM c v id false fs = (Except.error EKind.other, fs)) := by
  refine ⟨fun v cnt => rfl, ?_, fun α c v id o => rfl, ?_⟩
  · intro v name fs h
    simp [FileStore.saveObjectToFileM, h]
  · intro α c v id fs h
    simp [FileStore.save_with_idM, FileStore.saveObjectToFileM, h]

/-- Witness for C2: a failed temporary-file write over a concrete existing
record leaves it untouched and surfaces the error. -/
theorem claim2_failed_tmp_write_wit :
    acontains [("a.json", FileContent.json Value.null)] "a.json" = true
    ∧ FileStore.saveObjectToFileS (Value.obj []) false (some (FileContent.json Value.null))
        = (Except.error EKind.other, some (FileContent.json Value.null))
    ∧ FileStore.saveObjectToFileM (Value.obj []) "a.json" false
        [("a.json", FileContent.json Value.null)]
        = (Except.error EKind.other, [("a.json", FileContent.json Value.null)]) := by
  refine ⟨rfl, ?_, ?_⟩
  · exact claim2_failed_tmp_write_preserves_target.1 (Value.obj []) (FileContent.json Value.null)
  · exact claim2_failed_tmp_write_preserves_target.2.1 (Value.obj []) "a.json" _ rfl

/-- Claim C3: `save_with_id` succeeds silently when a record with the id
already exists (upsert, no "already exists" error); afterwards the latest
value is the one retrieved, and the record count is unchanged, on all three
backends. -/
theorem claim3_upsert {α : Type} (c : Codec α) (v : α) (id : String)
    (hrt : c.dec (c.enc v) = some v) :
    (∀ st : MemSt, acontains st id = true →
        (MemoryStore.save_with_id c v id st).1 = Except.ok id
        ∧ MemoryStore.get c id (MemoryStore.save_with_id c v id st).2 = Except.ok v
        ∧ (MemoryStore.save_with_id c v id st).2.length = st.length)
    ∧ (∀ o : List (String × Value), acontains o id = true →
        (FileStore.save_with_idS c v id true (some (FileContent.json (Value.obj o)))).1
          = Except.ok id
        ∧ FileStore.getS c id
            (FileStore.save_with_idS c v id true (some (FileContent.json (Value.obj o)))).2
            = Except.ok v
        ∧ (FileStore.save_with_idS c v id true (some (FileContent.json (Value.obj o)))).2
            = some (FileContent.json (Value.obj (ainsert o id (c.enc v))))
        ∧ (ainsert o id (c.enc v)).length = o.length)
    ∧ (∀ fs : MFS, acontains fs (fileNameForId id) = true →
        (FileStore.save_with_idM c v id true fs).1 = Except.ok id
        ∧ FileStore.getM c id (FileStore.save_with_idM c v id true fs).2 = Except.ok v
        ∧ (FileStore.save_with_idM c v id true fs).2.length = fs.length) := by
  refine ⟨?_, ?_, ?_⟩
  · intro st h
    refine ⟨rfl, ?_, length_ainsert_of_acontains st id (c.enc v) h⟩
    simp [MemoryStore.save_with_id, MemoryStore.get, alookup_ainsert_self, hrt]
  · intro o h
    refine ⟨rfl, ?_, rfl, length_ainsert_of_acontains o id (c.enc v) h⟩
    have h1 : (FileStore.save_with_idS c v id true (some (FileContent.json (Value.obj o)))).2
        = some (FileContent.json (Value.obj (ainsert o id (c.enc v)))) := rfl
    rw [h1]
    simp [FileStore.getS, FileStore.readJsonS, lookupValue, alookup_ainsert_self, hrt]
  · intro fs h
    refine ⟨rfl, ?_, ?_⟩
    · have h1 : (FileStore.save_with_idM c v id true fs).2
          = ainsert fs (fileNameForId id) (FileContent.json (c.enc v)) := rfl
      rw [h1]
      simp [FileStore.getM, FileStore.readFileM, alookup_ainsert_self, hrt]
    · exact length_ainsert_of_acontains fs (fileNameForId id) _ h

/-- Witness for C3: a concrete overwrite of an existing record on each
backend keeps the count and serves the new value. -/
theorem claim3_upsert_wit :
    boolCodec.dec (boolCodec.enc false) = some false
    ∧ acontains [("x", Value.bool true)] "x" = true
    ∧ MemoryStore.get boolCodec "x"
        (MemoryStore.save_with_id boolCodec false "x" [("x", Value.bool true)]).2
        = Except.ok false
    ∧ (MemoryStore.save_with_id boolCodec false "x" [("x", Value.bool true)]).2.length = 1
    ∧ acontains [("x.json", FileContent.json (Value.bool true))] "x.json" = true
    ∧ (FileStore.save_with_idM boolCodec false "x" true
        [("x.json", FileContent.json (Value.bool true))]).2.length = 1 := by
  have h := claim3_upsert boolCodec false "x" rfl
  refine ⟨rfl, rfl, (h.1 [("x", Value.bool true)] rfl).2.1,
    (h.1 [("x", Value.bool true)] rfl).2.2, rfl, ?_⟩
  exact (h.2.2 [("x.json", FileContent.json (Value.bool true))] rfl).2.2

/-- Claim C4, counterexample: the legacy `Store::new_with_cfg` in `lib.rs`
opens a single-file store over an existing non-empty file and does *not*
leave its content unchanged — it unconditionally rewrites the file to the
empty object, contradicting the claim for that implementation. -/
theorem claim4_cex_legacy_open_overwrites :
    (Store.newWithCfgSingleLegacy true
        (some (FileContent.json (Value.obj [("a", Value.null)])))).2
      ≠ some (FileContent.json (Value.obj [("a", Value.null)])) := by
  intro h
  have h2 : some (FileContent.json (Value.obj ([] : List (String × Value))))
      = some (FileContent.json (Value.obj [("a", Value.null)])) := h
  injection h2 with h3
  injection h3 with h4
  injection h4 with h5
  exact List.noConfusion h5

/-- Claim C4 (amended): for the serde-based `FileStore::new_with_cfg`,
opening in single-file mode initializes the backing file to the empty JSON
object exactly when no file exists at the normalized path, and leaves an
existing file's content unchanged; the legacy rustc-serialize
`Store::new_with_cfg` in `lib.rs` instead unconditionally rewrites the file
to the empty object. -/
theorem claim4_open_initializes_iff_absent (fs : SFS) :
    (fs = none →
      FileStore.newWithCfgSingle true fs
        = (Except.ok (), some (FileContent.json (Value.obj []))))
    ∧ (∀ cnt : FileContent, fs = some cnt →
      FileStore.newWithCfgSingle true fs = (Except.ok (), some cnt))
    ∧ (∀ wok : Bool, Store.newWithCfgSingleLegacy wok fs
        = FileStore.saveObjectToFileS (Value.obj []) wok fs) := by
  refine ⟨?_, ?_, fun _ => rfl⟩
  · intro h; rw [h]; rfl
  · intro cnt h; rw [h]; rfl

/-- Witness for C4: concrete open over a missing file and over an existing
file. -/
theorem claim4_open_wit :
    ((none : SFS) = none
      ∧ FileStore.newWithCfgSingle true none
          = (Except.ok (), some (FileContent.json (Value.obj []))))
    ∧ ((some (FileContent.corrupt "x") : SFS) = some (FileContent.corrupt "x")
      ∧ FileStore.newWithCfgSingle true (some (FileContent.corrupt "x"))
          = (Except.ok (), some (FileContent.corrupt "x"))) :=
  ⟨⟨rfl, (claim4_open_initializes_iff_absent none).1 rfl⟩,
   ⟨rfl, (claim4_open_initializes_iff_absent (some (FileContent.corrupt "x"))).2.1 _ rfl⟩⟩

/-- Claim C7: `get(id)` with no record stored under `id` fails with a
NotFound error, on the memory backend and on the file backend in both
single-file mode (no such top-level key in the aggregate, or no aggregate
file) and multi-file mode (no such record file). -/
theorem claim7_get_absent_not_found {α : Type} (c : Codec α) (id : String) :
    (∀ st : MemSt, alookup st id = none →
        MemoryStore.get c id st = Except.error EKind.notFound)
    ∧ (∀ j : Value, lookupValue j id = none →
        FileStore.getS c id (some (FileContent.json j)) = Except.error EKind.notFound)
    ∧ FileStore.getS c id none = Except.error EKind.notFound
    ∧ (∀ fs : MFS, alookup fs (fileNameForId id) = none →
        FileStore.getM c id fs = Except.error EKind.notFound) := by
  refine ⟨?_, ?_, rfl, ?_⟩
  · intro st h; simp [MemoryStore.get, h]
  · intro j h; simp [FileStore.getS, FileStore.readJsonS, h]
  · intro fs h; simp [FileStore.getM, FileStore.readFileM, h]

/-- Witness for C7: a concrete absent id yields NotFound on every backend. -/
theorem claim7_get_absent_wit :
    alookup ([] : MemSt) "nope" = none
    ∧ MemoryStore.get boolCodec "nope" [] = Except.error EKind.notFound
    ∧ FileStore.getS boolCodec "nope" (some (FileContent.json (Value.obj [])))
        = Except.error EKind.notFound
    ∧ FileStore.getM boolCodec "nope" [] = Except.error EKind.notFound := by
  have h := claim7_get_absent_not_found boolCodec "nope"
  exact ⟨rfl, h.1 [] rfl, h.2.1 (Value.obj []) rfl, h.2.2.2 [] rfl⟩

/-- Claim C5, counterexample: the call sequence `save(null, "a")`,
`save(true, "a.b")`, `get("a")` observably diverges between the multi-file
file backend and the memory backend, because `with_extension` maps both
`"a"` and `"a.b"` to the file `a.json`: the file backend answers `get("a")`
with the value saved under `"a.b"`, the memory backend with the value saved
under `"a"`. -/
theorem claim5_cex_backend_divergence :
    runM valueCodec cexOps [] ≠ runMem valueCodec cexOps [] := by
  intro h
  have h1 : (runM valueCodec cexOps []).get? 2
      = some (Obs.got (Except.ok (Value.bool true))) := rfl
  have h2 : (runMem valueCodec cexOps []).get? 2
      = some (Obs.got (Except.ok Value.null)) := rfl
  rw [h] at h1
  rw [h2] at h1
  injection h1 with h3
  injection h3 with h4
  injection h4 with h5
  exact Value.noConfusion h5

/-- Claim C5 (amended): for every sequence of save_with_id/get/get_all/delete
calls whose ids are nonempty and free of `'.'` and `'/'`, running it against
a freshly opened file-backed store — in single-file or multi-file mode — and
against a fresh memory-backed store yields identical observable results at
every step, including the NotFound distinction; for ids containing `'.'` the
multi-file backend diverges (see the counterexample). -/
theorem claim5_cross_backend_parity {α : Type} (c : Codec α) (ops : List (Op α))
    (hops : ∀ op ∈ ops, opSimple op = true) :
    runS c ops initSingle = runMem c ops []
    ∧ runM c ops [] = runMem c ops [] := by
  refine ⟨runS_eq_runMem c ops [], ?_⟩
  exact runM_eq_runMem c ops []
    ⟨fun kv hkv => absurd hkv (List.not_mem_nil kv), List.nodup_nil⟩ hops

/-- Witness for C5: a concrete sequence exercising save, get, get_all and
delete (including NotFound outcomes) observed identically on all three
backends. -/
theorem claim5_parity_wit :
    (∀ op ∈ witOps, opSimple op = true)
    ∧ runS boolCodec witOps initSingle = runMem boolCodec witOps []
    ∧ runM boolCodec witOps [] = runMem boolCodec witOps [] := by
  have h := claim5_cross_backend_parity boolCodec witOps (by decide)
  exact ⟨by decide, h.1, h.2⟩

/-- Claim C6: `get_all` returns exactly the records whose stored content
decodes at the requested type, silently skipping the rest, on the memory
backend, the single-file backend (over its aggregate object), and the
multi-file backend (over a directory of saved records); while an
aggregate-file parse failure, a non-object aggregate, or a directory read
failure still fails the whole call. -/
theorem claim6_get_all_decodable {α : Type} (c : Codec α) :
    (∀ st : MemSt, MemoryStore.all c st
        = Except.ok (st.filterMap fun kv => (c.dec kv.2).map fun r => (kv.1, r)))
    ∧ (∀ o : List (String × Value),
        FileStore.allS c (some (FileContent.json (Value.obj o)))
          = Except.ok (o.filterMap fun kv => (c.dec kv.2).map fun r => (kv.1, r)))
    ∧ (∀ s : String,
        FileStore.allS c (some (FileContent.corrupt s)) = Except.error EKind.other)
    ∧ (∀ n : Int,
        FileStore.allS c (some (FileContent.json (Value.num n)))
          = Except.error EKind.invalidData)
    ∧ (∀ fs : MFS, FileStore.allM c false fs = Except.error EKind.other)
    ∧ (∀ st : MemSt, GoodSt st →
        FileStore.allM c true (renameSt st)
          = Except.ok (st.filterMap fun kv => (c.dec kv.2).map fun r => (kv.1, r))) := by
  refine ⟨fun st => rfl, fun o => rfl, fun s => rfl, fun n => rfl, fun fs => rfl, ?_⟩
  intro st hG
  exact allM_renameSt c st hG.1 hG.2

/-- Witness for C6: a two-record store in which exactly one record decodes
as a boolean; `get_all` returns just that record on the multi-file backend. -/
theorem claim6_get_all_wit :
    GoodSt [("a", Value.bool true), ("b", Value.null)]
    ∧ FileStore.allM boolCodec true
        (renameSt [("a", Value.bool true), ("b", Value.null)])
        = Except.ok [("a", true)] := by
  have hS : ∀ kv ∈ [("a", Value.bool true), ("b", Value.null)], simpleId kv.1 = true := by
    decide
  have hG : GoodSt [("a", Value.bool true), ("b", Value.null)] := ⟨hS, by decide⟩
  exact ⟨hG, (claim6_get_all_decodable boolCodec).2.2.2.2.2 _ hG⟩

/-- Claim C8: `delete(id)` fails with NotFound exactly when no record with
the id exists, a failed delete leaves the store unchanged, and after a
successful delete both `get(id)` and a second `delete(id)` fail with
NotFound — on the memory backend and the file backend in both modes. -/
theorem claim8_delete_not_found {α : Type} (c : Codec α) (id : String) :
    (∀ st : MemSt,
        (acontains st id = false →
          MemoryStore.delete id st = (Except.error EKind.notFound, st))
        ∧ (acontains st id = true →
          MemoryStore.delete id st = (Except.ok (), aremove st id)
          ∧ MemoryStore.get c id (aremove st id) = Except.error EKind.notFound
          ∧ MemoryStore.delete id (aremove st id)
              = (Except.error EKind.notFound, aremove st id)))
    ∧ (∀ o : List (String × Value),
        (acontains o id = false →
          FileStore.deleteS id true (some (FileContent.json (Value.obj o)))
            = (Except.error EKind.notFound, some (FileContent.json (Value.obj o))))
        ∧ (acontains o id = true →
          FileStore.deleteS id true (some (FileContent.json (Value.obj o)))
            = (Except.ok (), some (FileContent.json (Value.obj (aremove o id))))
          ∧ FileStore.getS c id (some (FileContent.json (Value.obj (aremove o id))))
              = Except.error EKind.notFound
          ∧ FileStore.deleteS id true (some (FileContent.json (Value.obj (aremove o id))))
              = (Except.error EKind.notFound,
                  some (FileContent.json (Value.obj (aremove o id))))))
    ∧ (∀ fs : MFS,
        (acontains fs (fileNameForId id) = false →
          FileStore.deleteM id fs = (Except.error EKind.notFound, fs))
        ∧ (acontains fs (fileNameForId id) = true →
          FileStore.deleteM id fs = (Except.ok (), aremove fs (fileNameForId id))
          ∧ FileStore.getM c id (aremove fs (fileNameForId id))
              = Except.error EKind.notFound
          ∧ FileStore.deleteM id (aremove fs (fileNameForId id))
              = (Except.error EKind.notFound, aremove fs (fileNameForId id)))) := by
  refine ⟨?_, ?_, ?_⟩
  · intro st
    constructor
    · intro h; simp [MemoryStore.delete, h]
    · intro h
      refine ⟨by simp [MemoryStore.delete, h], ?_, ?_⟩
      · simp [MemoryStore.get, alookup_aremove_self]
      · simp [MemoryStore.delete, acontains_aremove_self]
  · intro o
    constructor
    · intro h
      simp [FileStore.deleteS, FileStore.readJsonS, asObject, h]
    · intro h
      refine ⟨?_, ?_, ?_⟩
      · simp [FileStore.deleteS, FileStore.readJsonS, asObject, h,
          FileStore.saveObjectToFileS]
      · simp [FileStore.getS, FileStore.readJsonS, lookupValue, alookup_aremove_self]
      · simp [FileStore.deleteS, FileStore.readJsonS, asObject, acontains_aremove_self]
  · intro fs
    constructor
    · intro h; simp [FileStore.deleteM, h]
    · intro h
      refine ⟨by simp [FileStore.deleteM, h], ?_, ?_⟩
      · simp [FileStore.getM, FileStore.readFileM, alookup_aremove_self]
      · simp [FileStore.deleteM, acontains_aremove_self]

/-- Witness for C8: concrete absent-id and present-id deletes on the memory
backend and the multi-file backend. -/
theorem claim8_delete_wit :
    acontains ([] : MemSt) "x" = false
    ∧ MemoryStore.delete "x" ([] : MemSt) = (Except.error EKind.notFound, [])
    ∧ acontains [("x", Value.null)] "x" = true
    ∧ MemoryStore.delete "x" [("x", Value.null)] = (Except.ok (), [])
    ∧ MemoryStore.get boolCodec "x" (aremove [("x", Value.null)] "x")
        = Except.error EKind.notFound
    ∧ acontains [("x.json", FileContent.json Value.null)] (fileNameForId "x") = true
    ∧ FileStore.deleteM "x" [("x.json", FileContent.json Value.null)]
        = (Except.ok (), aremove [("x.json", FileContent.json Value.null)] (fileNameForId "x")) := by
  have h := claim8_delete_not_found boolCodec "x"
  refine ⟨rfl, (h.1 []).1 rfl, rfl, ?_, (h.1 [("x", Value.null)]).2 rfl |>.2.1, rfl, ?_⟩
  · exact (h.1 [("x", Value.null)]).2 rfl |>.1
  · exact (h.2.2 [("x.json", FileContent.json Value.null)]).2 rfl |>.1

/-- Claim C9, counterexample: `id_to_path` does not append `.json` to the id
`"a.b"` in multi-file mode — `with_extension` *replaces* the `.b` suffix, so
the path is `root/a.json`, not `root/a.b.json`. -/
theorem claim9_cex_dotted_id :
    idToPath "root" false "a.b" ≠ "root" ++ "/" ++ "a.b" ++ ".json" := by decide

/-- Claim C9 (amended): for every id that is nonempty and free of `'.'` and
`'/'`, `id_to_path` maps it to `root/id.json` in multi-file mode, and to the
root file itself regardless of the id in single-file mode; for ids with a
`'.'`, `with_extension` replaces the trailing portion instead of appending
(see the counterexample). -/
theorem claim9_id_to_path (root id : String) :
    (simpleId id = true → idToPath root false id = root ++ "/" ++ id ++ ".json")
    ∧ idToPath root true id = root := by
  refine ⟨?_, rfl⟩
  intro h
  have h0 : idToPath root false id = root ++ "/" ++ fileNameForId id := rfl
  rw [h0, fileNameForId_simple id h]
  exact (string_append_assoc (root ++ "/") id ".json").symm

/-- Witness for C9: a concrete simple id maps to `root/id.json` and to the
root file in single-file mode. -/
theorem claim9_id_to_path_wit :
    simpleId "bla" = true
    ∧ idToPath "data" false "bla" = "data" ++ "/" ++ "bla" ++ ".json"
    ∧ idToPath "data" true "bla" = "data" :=
  ⟨by decide, (claim9_id_to_path "data" "bla").1 (by decide),
    (claim9_id_to_path "data" "bla").2⟩

/-- Claim C10: `MemoryStore::all` is infallible — on every memory-store
state and for every requested type it returns Ok (possibly empty), whereas
the file backend's `get_all` can fail (e.g. on an unparsable aggregate
file). -/
theorem claim10_memory_all_infallible {α : Type} (c : Codec α) :
    (∀ st : MemSt, ∃ m : List (String × α), MemoryStore.all c st = Except.ok m)
    ∧ FileStore.allS c (some (FileContent.corrupt "not json"))
        = Except.error EKind.other := by
  exact ⟨fun st => ⟨_, rfl⟩, rfl⟩

end Jfs

